import Mathlib

/-!
Verification of the signal composition and basis-combination engine of the
`enterprise` pulsar-timing repository, together with its HDF5 derivative-file
helpers.

The repository's own copies of `gp_signals`, `utils`, `selections` and
`signal_base` are not part of the source tree here (only their tests are), so
the engine is modelled from the specification: basis matrices are lists of
columns over ℚ, signals are records carrying a generator kind, an optional
time span, a partition mask, basis columns and a prior vector, and the
collection combiner folds signals into blocks with the merge-versus-stack
rule of the spec.  Transcendental maps (base-10 exponential, sine, cosine,
square root, power-law spectral density) are abstracted as explicit function
arguments so that every definition stays computable.

The functions `write_designmatrix` and `read_designmatrix` are embedded from
the repository file `enterprise/derivative_file.py`, which is present in the
source tree.
-/

namespace Enterprise

/-! ## Basic list machinery -/

/-- Modelled from the spec: interleaved pair lists.  The Fourier basis and its
frequency vector place, for each harmonic number k = 1..M, two consecutive
entries (sine and cosine).  `pairList f g M` is the list
f 0, g 0, f 1, g 1, ..., f (M-1), g (M-1). -/
def pairList {α : Type} (f g : ℕ → α) : ℕ → List α
  | 0 => []
  | n + 1 => pairList f g n ++ [f n, g n]

/-- Elementwise addition of the second list into the leading entries of the
first list; entries of the first list beyond the second list's length are
kept unchanged. -/
def addInto : List ℚ → List ℚ → List ℚ
  | l, [] => l
  | [], _ :: _ => []
  | a :: l, b :: s => (a + b) :: addInto l s

/-! ## Quantization-epoch basis (white correlated noise) -/

/-- Modelled from the spec: split a sorted list of arrival times into epochs,
cutting wherever the gap between consecutive sorted TOAs exceeds the
window. -/
def clusterSorted (w : ℚ) : List ℚ → List (List ℚ)
  | [] => []
  | [t] => [[t]]
  | t1 :: t2 :: ts =>
    match clusterSorted w (t2 :: ts) with
    | [] => [[t1]]
    | c :: cs => if t2 - t1 > w then [t1] :: c :: cs else (t1 :: c) :: cs

/-- Modelled from the spec: the quantization (epoch-indicator) matrix of
`utils.create_quantization_matrix`, as a list of columns.  Column j has a 1
in row i iff TOA i belongs to epoch j, and epochs are the clusters of the
sorted TOAs split at gaps exceeding the window. -/
def create_quantization_matrix (w : ℚ) (toas : List ℚ) : List (List ℚ) :=
  (clusterSorted w (List.insertionSort (· ≤ ·) toas)).map
    (fun c => toas.map (fun t => if t ∈ c then (1 : ℚ) else 0))

/-! ## Fourier red-noise basis -/

/-- Modelled from the spec: the per-column frequency vector of
`utils.createfourierdesignmatrix_red`; each frequency f_k = k / T for
k = 1..M appears twice (sine, cosine) consecutively. -/
def fourierFreqs (M : ℕ) (T : ℚ) : List ℚ :=
  pairList (fun k => ((k : ℚ) + 1) / T) (fun k => ((k : ℚ) + 1) / T) M

/-- Modelled from the spec: the Fourier design matrix of
`utils.createfourierdesignmatrix_red` as a list of columns, with the sine and
cosine functions abstracted as the maps `sinA` and `cosA`.  Column 2k is the
sine column at frequency (k+1)/T and column 2k+1 the cosine column. -/
def createfourierdesignmatrix_red (sinA cosA : ℚ → ℚ) (toas : List ℚ)
    (M : ℕ) (T : ℚ) : List (List ℚ) :=
  pairList
    (fun k => toas.map (fun t => sinA (((k : ℚ) + 1) / T * t)))
    (fun k => toas.map (fun t => cosA (((k : ℚ) + 1) / T * t))) M

/-! ## Timing-model basis -/

/-- Sum of squares of a column, the square of its Euclidean norm. -/
def sumSq (c : List ℚ) : ℚ := (c.map (fun x => x * x)).sum

/-- Modelled from the spec: the timing-model basis rescales each column of
the externally supplied design matrix by its Euclidean (L2) norm over all
rows; the square root is abstracted as the map `sqrtA`. -/
def normalizeCols (sqrtA : ℚ → ℚ) (M : List (List ℚ)) : List (List ℚ) :=
  M.map (fun c => c.map (fun x => x / sqrtA (sumSq c)))

/-! ## Selection partitioner -/

/-- Lexicographic comparison of character-code keys, a computable total order
used to sort flag values. -/
def keyLe : List ℕ → List ℕ → Bool
  | [], _ => true
  | _ :: _, [] => false
  | a :: as, b :: bs => if a < b then true else if b < a then false else keyLe as bs

/-- Character-code key of a string. -/
def strKey (s : String) : List ℕ := s.data.map Char.toNat

/-- The order on flag values: lexicographic on character codes. -/
def flagLe (a b : String) : Prop := keyLe (strKey a) (strKey b) = true

instance : DecidableRel flagLe := fun _ _ => instDecidableEqBool _ _

/-- Modelled from the spec: the distinct flag values present, in sorted
order, as computed by the Selection partitioner of
`enterprise.signals.selections`. -/
def distinctFlags (flags : List String) : List String :=
  List.insertionSort flagLe flags.dedup

/-- Modelled from the spec: the boolean mask selecting the TOAs carrying flag
value `v`. -/
def flagMask (flags : List String) (v : String) : List Bool :=
  flags.map (fun f => f == v)

/-- Restriction of a TOA list to the entries selected by a mask. -/
def applyMask (mask : List Bool) (xs : List ℚ) : List ℚ :=
  ((mask.zip xs).filter (fun p => p.1)).map (fun p => p.2)

/-- Zero-expansion of a masked column back to full TOA height: rows outside
the mask are set to 0. -/
def expandCol (mask : List Bool) (col : List ℚ) : List ℚ :=
  match mask, col with
  | [], _ => []
  | true :: ms, v :: vs => v :: expandCol ms vs
  | true :: ms, [] => 0 :: expandCol ms []
  | false :: ms, vs => 0 :: expandCol ms vs

/-! ## Signals -/

/-- Modelled from the spec: the tagged variant of basis-generator kinds. -/
inductive GenKind : Type
  | fourier
  | ecorr
  | timing
deriving DecidableEq

/-- Modelled from the spec: the evaluated output of one signal: its generator
kind, optional time span (used by the merge rule), partition mask over the
TOA index range, basis columns (already zero-expanded to full TOA height) and
prior vector. -/
structure SigOut : Type where
  kind : GenKind
  T : Option ℚ
  mask : List Bool
  cols : List (List ℚ)
  phi : List ℚ
deriving DecidableEq

/-- A parameter mapping: scalar value for each globally-unique name. -/
def Params : Type := String → ℚ

/-- Modelled from the spec: the ecorr (quantization-epoch) signal
`gp_signals.EcorrBasisModel` bound to the full unpartitioned TOA set.  Its
basis is the quantization matrix; its prior vector is the constant
10^(2·param) replicated once per epoch, with the base-10 exponential
abstracted as `pow10`. -/
def EcorrBasisModel (pow10 : ℚ → ℚ) (w : ℚ) (toas : List ℚ)
    (pname : String) : Params → SigOut :=
  fun prm =>
    let U := create_quantization_matrix w toas
    { kind := GenKind.ecorr
      T := none
      mask := List.replicate toas.length true
      cols := U
      phi := List.replicate U.length (pow10 (2 * prm pname)) }

/-- Modelled from the spec: the Fourier red-noise signal
`gp_signals.FourierBasisGP` bound to the full unpartitioned TOA set, with M
sinusoid pairs over span T.  The prior multiplies the abstract spectral
density `psd` (already a function of the parameter mapping) at each column's
frequency by the fundamental frequency spacing 1/T. -/
def FourierBasisGP (sinA cosA : ℚ → ℚ) (psd : Params → ℚ → ℚ)
    (M : ℕ) (T : ℚ) (toas : List ℚ) : Params → SigOut :=
  fun prm =>
    { kind := GenKind.fourier
      T := some T
      mask := List.replicate toas.length true
      cols := createfourierdesignmatrix_red sinA cosA toas M T
      phi := (fourierFreqs M T).map (fun f => psd prm f * (1 / T)) }

/-- Modelled from the spec: the timing-model signal `gp_signals.TimingModel`.
Each column of the externally supplied design matrix is divided by its
Euclidean norm and the prior is the very large constant variance 10^40 in
every column; the signal consumes no hyperparameters, so its output ignores
the parameter mapping. -/
def TimingModel (sqrtA : ℚ → ℚ) (Mmat : List (List ℚ)) : Params → SigOut :=
  fun _ =>
    { kind := GenKind.timing
      T := none
      mask := List.replicate (Mmat.headD []).length true
      cols := normalizeCols sqrtA Mmat
      phi := List.replicate Mmat.length ((10 : ℚ) ^ (40 : ℕ)) }

/-- Modelled from the spec: one per-partition replica of a Fourier signal
bound to a by-flag Selection.  The replica's generator runs on the masked TOA
subset and its columns are zero-expanded back to full TOA height. -/
def fourierReplica (sinA cosA : ℚ → ℚ) (psd : Params → ℚ → ℚ)
    (M : ℕ) (T : ℚ) (toas : List ℚ) (flags : List String)
    (v : String) : Params → SigOut :=
  fun prm =>
    let mask := flagMask flags v
    { kind := GenKind.fourier
      T := some T
      mask := mask
      cols := (createfourierdesignmatrix_red sinA cosA (applyMask mask toas) M T).map
        (expandCol mask)
      phi := (fourierFreqs M T).map (fun f => psd prm f * (1 / T)) }

/-- Modelled from the spec: the list of per-partition replicas of a Fourier
signal bound to a by-flag Selection, one per distinct flag value, ordered by
the sorted distinct flag values. -/
def fourierReplicas (sinA cosA : ℚ → ℚ) (psd : Params → ℚ → ℚ)
    (M : ℕ) (T : ℚ) (toas : List ℚ) (flags : List String) :
    List (Params → SigOut) :=
  (distinctFlags flags).map (fourierReplica sinA cosA psd M T toas flags)

/-! ## The Signal Collection combiner -/

/-- Modelled from the spec: two signal outputs are mergeable iff both are
Fourier-type, built with the same total time span and acting on the same TOA
subset. -/
def mergeable (b s : SigOut) : Prop :=
  b.kind = GenKind.fourier ∧ s.kind = GenKind.fourier ∧ b.T = s.T ∧ b.mask = s.mask

instance : ∀ b s, Decidable (mergeable b s) := fun _ _ => by
  unfold mergeable; infer_instance

/-- Modelled from the spec: merging a new mergeable signal `s` into a
pre-existing block `b`: the merged block keeps the basis of whichever has the
larger column count (ties go to the pre-existing block, hence to declaration
order), and the smaller signal's prior vector is added elementwise into the
leading entries of the larger signal's prior vector. -/
def mergeBlock (b s : SigOut) : SigOut :=
  if s.cols.length > b.cols.length then { s with phi := addInto s.phi b.phi }
  else { b with phi := addInto b.phi s.phi }

/-- Modelled from the spec: insert a new signal output into the running block
list, merging it into the first mergeable pre-existing block (modifying that
block's values, never its position) and otherwise appending it after all
existing columns. -/
def insertSig : List SigOut → SigOut → List SigOut
  | [], s => [s]
  | b :: bs, s => if mergeable b s then mergeBlock b s :: bs else b :: insertSig bs s

/-- Modelled from the spec: process signals in declaration order, maintaining
a running list of combined blocks. -/
def combineBlocks (outs : List SigOut) : List SigOut :=
  outs.foldl insertSig []

/-- The combined basis matrix: block columns in block order. -/
def combinedCols (outs : List SigOut) : List (List ℚ) :=
  ((combineBlocks outs).map SigOut.cols).flatten

/-- The combined prior vector: block prior vectors in block order. -/
def combinedPhi (outs : List SigOut) : List ℚ :=
  ((combineBlocks outs).map SigOut.phi).flatten

/-- The combined inverse prior vector: each block's prior vector
reciprocated, in block order. -/
def combinedPhiinv (outs : List SigOut) : List ℚ :=
  ((combineBlocks outs).map (fun b => b.phi.map (fun x => 1 / x))).flatten

/-- The collection's basis query at a parameter mapping. -/
def get_basis (sigs : List (Params → SigOut)) (prm : Params) : List (List ℚ) :=
  combinedCols (sigs.map (fun s => s prm))

/-- The collection's prior-vector query at a parameter mapping. -/
def get_phi (sigs : List (Params → SigOut)) (prm : Params) : List ℚ :=
  combinedPhi (sigs.map (fun s => s prm))

/-- The collection's inverse-prior-vector query at a parameter mapping. -/
def get_phiinv (sigs : List (Params → SigOut)) (prm : Params) : List ℚ :=
  combinedPhiinv (sigs.map (fun s => s prm))

/-- Well-formedness of a signal output over a TOA set of size N: every basis
column has N rows and the prior vector has one entry per column. -/
def WF (N : ℕ) (s : SigOut) : Prop :=
  (∀ c ∈ s.cols, c.length = N) ∧ s.phi.length = s.cols.length

/-! ## Construction-time validation -/

/-- Modelled from the spec: the configuration errors raised at construction
time. -/
inductive ConfigError : Type
  | nonPositiveComponents
  | nonPositiveTspan
deriving DecidableEq

/-- Modelled from the spec: constructing a Fourier red-noise signal fails
with a configuration error at construction time when the number of sinusoid
pairs or the total time span is not positive. -/
def mkFourierBasisGP (sinA cosA : ℚ → ℚ) (psd : Params → ℚ → ℚ)
    (components : ℤ) (Tspan : ℚ) (toas : List ℚ) :
    Except ConfigError (Params → SigOut) :=
  if components ≤ 0 then Except.error ConfigError.nonPositiveComponents
  else if Tspan ≤ 0 then Except.error ConfigError.nonPositiveTspan
  else Except.ok (FourierBasisGP sinA cosA psd components.toNat Tspan toas)

/-! ## The derivative-file helpers (embedded from enterprise/derivative_file.py)

HDF5 files are modelled as association lists of named datasets; a dataset
carries an array value (list of columns over ℚ) and string-list attributes.
Astropy unit objects are modelled by their string renderings, so the round
trip through `to_string` and `u.Unit` is the identity on the stored strings.
A Python attribute that may be absent (`hasattr`) is an `Option` field. -/

/-- An HDF5 dataset: an array value plus named attributes. -/
structure H5Dataset : Type where
  value : List (List ℚ)
  attrs : List (String × List String)
deriving DecidableEq

/-- An HDF5 file: named datasets. -/
structure H5File : Type where
  datasets : List (String × H5Dataset)
deriving DecidableEq

/-- The pulsar object the derivative-file helpers read and write: its design
matrix, its optional design-matrix units and its fit-parameter labels. -/
structure PsrThing : Type where
  designmatrix : List (List ℚ)
  designmatrix_units : Option (List String)
  fitpars : List String
deriving DecidableEq

/-- Embedded from derivative_file.py: write_unit_list sets the named
attribute of a dataset to the unit strings. -/
def write_unit_list (ds : H5Dataset) (aname : String) (units : List String) :
    H5Dataset :=
  { ds with attrs := (aname, units) :: ds.attrs }

/-- Embedded from derivative_file.py: write_designmatrix refuses any
attribute other than "_designmatrix" with a ValueError before writing, and
otherwise stores the design matrix as a dataset with its unit strings (when
the object has them) and its fit-parameter labels as attributes. -/
def write_designmatrix (h5file : H5File) (name : String) (thing : PsrThing)
    (attr : String) : Except String H5File :=
  if attr ≠ "_designmatrix" then
    Except.error ("Trying to write " ++ attr ++ " as if it were the design matrix")
  else
    let ds0 : H5Dataset := { value := thing.designmatrix, attrs := [] }
    let ds1 : H5Dataset :=
      match thing.designmatrix_units with
      | some us => write_unit_list ds0 "units" us
      | none => ds0
    let ds2 : H5Dataset := { ds1 with attrs := ("labels", thing.fitpars) :: ds1.attrs }
    Except.ok { datasets := (name, ds2) :: h5file.datasets }

/-- Embedded from derivative_file.py: read_designmatrix refuses any
attribute other than "_designmatrix" with a ValueError (whose message says
"write", as in the source) before reading, and otherwise sets the object's
design matrix from the named dataset and, when a "units" attribute is
present, its design-matrix units. -/
def read_designmatrix (h5file : H5File) (name : String) (thing : PsrThing)
    (attr : String) : Except String PsrThing :=
  if attr ≠ "_designmatrix" then
    Except.error ("Trying to write " ++ attr ++ " as if it were the design matrix")
  else
    match h5file.datasets.lookup name with
    | none => Except.error ("KeyError: " ++ name)
    | some ds =>
      let t1 : PsrThing := { thing with designmatrix := ds.value }
      Except.ok (match ds.attrs.lookup "units" with
        | some us => { t1 with designmatrix_units := some us }
        | none => t1)

/-! ## Lemmas about the basic list machinery -/

theorem pairList_length {α : Type} (f g : ℕ → α) (M : ℕ) :
    (pairList f g M).length = 2 * M := by
  induction M with
  | zero => rfl
  | succ n ih => simp [pairList, ih]; omega

theorem pairList_getD_even {α : Type} (f g : ℕ → α) (M j : ℕ) (d : α)
    (h : j < M) : (pairList f g M).getD (2 * j) d = f j := by
  induction M with
  | zero => omega
  | succ n ih =>
    rcases Nat.lt_or_ge j n with hj | hj
    · rw [pairList, List.getD_append _ _ _ _ (by rw [pairList_length]; omega)]
      exact ih hj
    · have hjn : j = n := by omega
      subst hjn
      rw [pairList, List.getD_eq_getElem?_getD, List.getElem?_append,
        if_neg (by rw [pairList_length]; omega), pairList_length]
      simp

theorem pairList_getD_odd {α : Type} (f g : ℕ → α) (M j : ℕ) (d : α)
    (h : j < M) : (pairList f g M).getD (2 * j + 1) d = g j := by
  induction M with
  | zero => omega
  | succ n ih =>
    rcases Nat.lt_or_ge j n with hj | hj
    · rw [pairList, List.getD_append _ _ _ _ (by rw [pairList_length]; omega)]
      exact ih hj
    · have hjn : j = n := by omega
      subst hjn
      rw [pairList, List.getD_eq_getElem?_getD, List.getElem?_append,
        if_neg (by rw [pairList_length]; omega), pairList_length]
      have : 2 * j + 1 - 2 * j = 1 := by omega
      simp [this]

theorem pairList_map {α β : Type} (h : α → β) (f g : ℕ → α) (M : ℕ) :
    (pairList f g M).map h = pairList (fun k => h (f k)) (fun k => h (g k)) M := by
  induction M with
  | zero => rfl
  | succ n ih => simp [pairList, ih]

theorem mem_pairList {α : Type} {c : α} {f g : ℕ → α} {M : ℕ}
    (h : c ∈ pairList f g M) : ∃ k, k < M ∧ (c = f k ∨ c = g k) := by
  induction M with
  | zero => simp [pairList] at h
  | succ n ih =>
    rw [pairList, List.mem_append] at h
    rcases h with h | h
    · obtain ⟨k, hk, hc⟩ := ih h
      exact ⟨k, by omega, hc⟩
    · simp at h
      rcases h with h | h
      · exact ⟨n, by omega, Or.inl h⟩
      · exact ⟨n, by omega, Or.inr h⟩

theorem addInto_length (l s : List ℚ) : (addInto l s).length = l.length := by
  induction l generalizing s with
  | nil => cases s <;> rfl
  | cons a l ih =>
    cases s with
    | nil => rfl
    | cons b s => simp [addInto, ih]

theorem addInto_getD_lt (l s : List ℚ) (i : ℕ) (hs : i < s.length)
    (hl : i < l.length) :
    (addInto l s).getD i 0 = l.getD i 0 + s.getD i 0 := by
  induction l generalizing s i with
  | nil => simp at hl
  | cons a l ih =>
    cases s with
    | nil => simp at hs
    | cons b s =>
      cases i with
      | zero => rfl
      | succ n =>
        simp only [addInto, List.getD_cons_succ]
        exact ih s n (by simpa using hs) (by simpa using hl)

theorem addInto_getD_ge (l s : List ℚ) (i : ℕ) (hs : s.length ≤ i) :
    (addInto l s).getD i 0 = l.getD i 0 := by
  induction l generalizing s i with
  | nil => cases s <;> rfl
  | cons a l ih =>
    cases s with
    | nil => rfl
    | cons b s =>
      cases i with
      | zero => simp at hs
      | succ n =>
        simp only [addInto, List.getD_cons_succ]
        exact ih s n (by simpa using hs)

/-! ## Lemmas about the selection partitioner -/

theorem keyLe_total (a b : List ℕ) : keyLe a b = true ∨ keyLe b a = true := by
  induction a generalizing b with
  | nil => left; rfl
  | cons x xs ih =>
    cases b with
    | nil => right; rfl
    | cons y ys =>
      rcases Nat.lt_trichotomy x y with h | h | h
      · left; simp [keyLe, h]
      · subst h
        rcases ih ys with h2 | h2
        · left; simp [keyLe, h2]
        · right; simp [keyLe, h2]
      · right; simp [keyLe, h]

theorem keyLe_trans (a b c : List ℕ) (h1 : keyLe a b = true)
    (h2 : keyLe b c = true) : keyLe a c = true := by
  induction a generalizing b c with
  | nil => rfl
  | cons x xs ih =>
    cases b with
    | nil => simp [keyLe] at h1
    | cons y ys =>
      cases c with
      | nil => simp [keyLe] at h2
      | cons z zs =>
        simp only [keyLe] at h1 h2 ⊢
        rcases Nat.lt_trichotomy x y with hxy | hxy | hxy
        · rcases Nat.lt_trichotomy y z with hyz | hyz | hyz
          · simp [show x < z by omega]
          · subst hyz; simp [hxy]
          · rw [if_neg (by omega), if_pos hyz] at h2; exact absurd h2 (by simp)
        · subst hxy
          rcases Nat.lt_trichotomy x z with hyz | hyz | hyz
          · simp [hyz]
          · subst hyz
            rw [if_neg (by omega), if_neg (by omega)] at h1 h2 ⊢
            exact ih ys zs h1 h2
          · rw [if_neg (by omega), if_pos hyz] at h2; exact absurd h2 (by simp)
        · rw [if_neg (by omega), if_pos hxy] at h1; exact absurd h1 (by simp)

instance : IsTotal String flagLe := ⟨fun a b => keyLe_total (strKey a) (strKey b)⟩

instance : IsTrans String flagLe :=
  ⟨fun a b c => keyLe_trans (strKey a) (strKey b) (strKey c)⟩

theorem distinctFlags_sorted (flags : List String) :
    List.Sorted flagLe (distinctFlags flags) :=
  List.sorted_insertionSort flagLe flags.dedup

theorem distinctFlags_nodup (flags : List String) :
    (distinctFlags flags).Nodup :=
  ((List.perm_insertionSort flagLe flags.dedup).nodup_iff).mpr
    (List.nodup_dedup flags)

theorem mem_distinctFlags {flags : List String} {v : String} :
    v ∈ distinctFlags flags ↔ v ∈ flags := by
  unfold distinctFlags
  rw [(List.perm_insertionSort flagLe flags.dedup).mem_iff]
  exact List.mem_dedup

theorem flagMask_getD {flags : List String} {v : String} {i : ℕ}
    (h : i < flags.length) :
    (flagMask flags v).getD i false = (flags.getD i "" == v) := by
  rw [flagMask, List.getD_eq_getElem?_getD, List.getD_eq_getElem?_getD,
    List.getElem?_map, List.getElem?_eq_getElem h]
  rfl

theorem flagMask_getD_big {flags : List String} {v : String} {i : ℕ}
    (h : flags.length ≤ i) : (flagMask flags v).getD i false = false := by
  rw [flagMask, List.getD_eq_getElem?_getD, List.getElem?_eq_none (by simpa using h)]
  rfl

theorem flagMask_cover (flags : List String) (i : ℕ) (h : i < flags.length) :
    (distinctFlags flags).countP
      (fun v => (flagMask flags v).getD i false) = 1 := by
  have hc : ∀ v, (flagMask flags v).getD i false = (v == flags.getD i "") := by
    intro v
    rw [flagMask_getD h, Bool.eq_iff_iff, beq_iff_eq, beq_iff_eq]
    exact eq_comm
  rw [List.countP_congr (fun v _ => by rw [hc v]), ← List.count_eq_countP]
  have hmem : flags.getD i "" ∈ flags := by
    rw [List.getD_eq_getElem?_getD, List.getElem?_eq_getElem h]
    exact List.getElem_mem h
  exact List.count_eq_one_of_mem (distinctFlags_nodup flags)
    (mem_distinctFlags.mpr hmem)

theorem flagMask_disjoint (flags : List String) :
    (distinctFlags flags).Pairwise (fun v w => ∀ i : ℕ,
      ¬((flagMask flags v).getD i false = true ∧
        (flagMask flags w).getD i false = true)) := by
  have hne : (distinctFlags flags).Pairwise (fun v w => v ≠ w) :=
    distinctFlags_nodup flags
  refine hne.imp ?_
  intro v w hvw i ⟨hv, hw⟩
  rcases Nat.lt_or_ge i flags.length with h | h
  · rw [flagMask_getD h] at hv hw
    exact hvw (by rw [← beq_iff_eq.mp hv, ← beq_iff_eq.mp hw])
  · rw [flagMask_getD_big h] at hv
    exact Bool.false_ne_true hv

/-! ## Lemmas about the combiner -/

theorem combineBlocks_singleton (s : SigOut) : combineBlocks [s] = [s] := rfl

theorem combineBlocks_pair (s1 s2 : SigOut) :
    combineBlocks [s1, s2] =
      if mergeable s1 s2 then [mergeBlock s1 s2] else [s1, s2] := by
  rfl

theorem insertSig_not_mergeable {blocks : List SigOut} {s : SigOut}
    (h : ∀ b ∈ blocks, ¬ mergeable b s) :
    insertSig blocks s = blocks ++ [s] := by
  induction blocks with
  | nil => rfl
  | cons b bs ih =>
    rw [insertSig, if_neg (h b (List.mem_cons_self b bs))]
    rw [ih (fun x hx => h x (List.mem_cons_of_mem b hx))]
    rfl

theorem foldl_insertSig_pairwise (outs acc : List SigOut)
    (hacc : ∀ a ∈ acc, ∀ o ∈ outs, ¬ mergeable a o)
    (hp : outs.Pairwise (fun a b => ¬ mergeable a b)) :
    outs.foldl insertSig acc = acc ++ outs := by
  induction outs generalizing acc with
  | nil => simp
  | cons o os ih =>
    rw [List.foldl_cons,
      insertSig_not_mergeable (fun a ha => hacc a ha o (List.mem_cons_self o os))]
    rw [ih (acc ++ [o]) ?_ (List.Pairwise.of_cons hp)]
    · simp
    · intro a ha x hx
      rcases List.mem_append.mp ha with ha | ha
      · exact hacc a ha x (List.mem_cons_of_mem o hx)
      · have : a = o := by simpa using ha
        subst this
        exact (List.pairwise_cons.mp hp).1 x hx

theorem combineBlocks_pairwise (outs : List SigOut)
    (hp : outs.Pairwise (fun a b => ¬ mergeable a b)) :
    combineBlocks outs = outs := by
  rw [combineBlocks, foldl_insertSig_pairwise outs [] (by simp) hp]
  rfl

theorem wf_mergeBlock {N : ℕ} {b s : SigOut} (hb : WF N b) (hs : WF N s) :
    WF N (mergeBlock b s) := by
  rw [mergeBlock]
  split
  · exact ⟨hs.1, by rw [addInto_length]; exact hs.2⟩
  · exact ⟨hb.1, by rw [addInto_length]; exact hb.2⟩

theorem wf_insertSig {N : ℕ} {blocks : List SigOut} {s : SigOut}
    (hb : ∀ b ∈ blocks, WF N b) (hs : WF N s) :
    ∀ b ∈ insertSig blocks s, WF N b := by
  induction blocks with
  | nil => simpa [insertSig] using hs
  | cons x xs ih =>
    rw [insertSig]
    split
    · intro b hbmem
      rcases List.mem_cons.mp hbmem with h | h
      · subst h; exact wf_mergeBlock (hb x (List.mem_cons_self x xs)) hs
      · exact hb b (List.mem_cons_of_mem x h)
    · intro b hbmem
      rcases List.mem_cons.mp hbmem with h | h
      · subst h; exact hb b (List.mem_cons_self b xs)
      · exact ih (fun y hy => hb y (List.mem_cons_of_mem x hy)) b h

theorem wf_combineBlocks {N : ℕ} {outs : List SigOut}
    (h : ∀ s ∈ outs, WF N s) : ∀ b ∈ combineBlocks outs, WF N b := by
  rw [combineBlocks]
  have main : ∀ (l : List SigOut) (acc : List SigOut),
      (∀ s ∈ l, WF N s) → (∀ b ∈ acc, WF N b) →
      ∀ b ∈ l.foldl insertSig acc, WF N b := by
    intro l
    induction l with
    | nil => intro acc _ hacc; simpa using hacc
    | cons x xs ih =>
      intro acc hl hacc
      rw [List.foldl_cons]
      exact ih (insertSig acc x)
        (fun s hs => hl s (List.mem_cons_of_mem x hs))
        (wf_insertSig hacc (hl x (List.mem_cons_self x xs)))
  exact main outs [] h (by simp)

/-! ## Claim theorems -/

/-- C1: two Fourier-type signal outputs built with the same total time span
over the same TOA subset combine into a single merged block of
2·max(nf1,nf2) columns whose basis is that of the signal with the larger
column count (ties broken by declaration order), and whose prior vector is
the larger signal's prior vector with the smaller signal's prior vector added
elementwise into its leading 2·min(nf1,nf2) entries, the remaining entries
being the larger signal's values unchanged. -/
theorem fourier_merge_same_span (s1 s2 : SigOut) (nf1 nf2 : ℕ)
    (hk1 : s1.kind = GenKind.fourier) (hk2 : s2.kind = GenKind.fourier)
    (hT : s1.T = s2.T) (hm : s1.mask = s2.mask)
    (hc1 : s1.cols.length = 2 * nf1) (hc2 : s2.cols.length = 2 * nf2)
    (hp1 : s1.phi.length = 2 * nf1) (hp2 : s2.phi.length = 2 * nf2) :
    (combineBlocks [s1, s2]).length = 1 ∧
    combinedCols [s1, s2] = (if nf1 < nf2 then s2.cols else s1.cols) ∧
    (combinedCols [s1, s2]).length = 2 * max nf1 nf2 ∧
    (∀ i, i < 2 * min nf1 nf2 →
      (combinedPhi [s1, s2]).getD i 0 = s1.phi.getD i 0 + s2.phi.getD i 0) ∧
    (∀ i, 2 * min nf1 nf2 ≤ i →
      (combinedPhi [s1, s2]).getD i 0 =
        (if nf1 < nf2 then s2.phi else s1.phi).getD i 0) ∧
    (combinedPhi [s1, s2]).length = 2 * max nf1 nf2 := by
  have hmg : mergeable s1 s2 := ⟨hk1, hk2, hT, hm⟩
  have hcb : combineBlocks [s1, s2] = [mergeBlock s1 s2] := by
    rw [combineBlocks_pair, if_pos hmg]
  have hcols : combinedCols [s1, s2] = (mergeBlock s1 s2).cols := by
    rw [combinedCols, hcb]; simp
  have hphi : combinedPhi [s1, s2] = (mergeBlock s1 s2).phi := by
    rw [combinedPhi, hcb]; simp
  rcases Nat.lt_or_ge nf1 nf2 with hlt | hge
  · have hbr : s2.cols.length > s1.cols.length := by omega
    have hmbc : (mergeBlock s1 s2).cols = s2.cols := by
      rw [mergeBlock, if_pos hbr]
    have hmbp : (mergeBlock s1 s2).phi = addInto s2.phi s1.phi := by
      rw [mergeBlock, if_pos hbr]
    refine ⟨by rw [hcb]; rfl, ?_, ?_, ?_, ?_, ?_⟩
    · rw [hcols, hmbc, if_pos hlt]
    · rw [hcols, hmbc, hc2]; omega
    · intro i hi
      rw [hphi, hmbp, addInto_getD_lt _ _ _ (by omega) (by omega)]
      exact add_comm _ _
    · intro i hi
      rw [hphi, hmbp, if_pos hlt, addInto_getD_ge _ _ _ (by omega)]
    · rw [hphi, hmbp, addInto_length, hp2]; omega
  · have hbr : ¬ s2.cols.length > s1.cols.length := by omega
    have hmbc : (mergeBlock s1 s2).cols = s1.cols := by
      rw [mergeBlock, if_neg hbr]
    have hmbp : (mergeBlock s1 s2).phi = addInto s1.phi s2.phi := by
      rw [mergeBlock, if_neg hbr]
    have hnlt : ¬ nf1 < nf2 := by omega
    refine ⟨by rw [hcb]; rfl, ?_, ?_, ?_, ?_, ?_⟩
    · rw [hcols, hmbc, if_neg hnlt]
    · rw [hcols, hmbc, hc1]; omega
    · intro i hi
      rw [hphi, hmbp, addInto_getD_lt _ _ _ (by omega) (by omega)]
    · intro i hi
      rw [hphi, hmbp, if_neg hnlt, addInto_getD_ge _ _ _ (by omega)]
    · rw [hphi, hmbp, addInto_length, hp1]; omega

/-- Witness for C1 at a concrete input: a 2-pair and a 1-pair Fourier signal
over the same span and mask merge into one 4-column block; the prior overlap
adds and the excess is unchanged. -/
theorem fourier_merge_same_span_witness :
    (combineBlocks
        [⟨GenKind.fourier, some 1, [true], [[1], [2], [3], [4]], [1, 2, 3, 4]⟩,
         ⟨GenKind.fourier, some 1, [true], [[5], [6]], [10, 20]⟩]).length = 1 ∧
    combinedPhi
        [⟨GenKind.fourier, some 1, [true], [[1], [2], [3], [4]], [1, 2, 3, 4]⟩,
         ⟨GenKind.fourier, some 1, [true], [[5], [6]], [10, 20]⟩] =
      [11, 22, 3, 4] := by
  have h := fourier_merge_same_span
    ⟨GenKind.fourier, some 1, [true], [[1], [2], [3], [4]], [1, 2, 3, 4]⟩
    ⟨GenKind.fourier, some 1, [true], [[5], [6]], [10, 20]⟩ 2 1
    rfl rfl rfl rfl rfl rfl rfl rfl
  refine ⟨h.1, ?_⟩
  norm_num [combinedPhi, combineBlocks, insertSig, mergeable, mergeBlock, addInto]

/-- C2: pairwise non-mergeable signal outputs (different span, different
partition, or different generator types) contribute independent blocks: the
combined basis is the concatenation of their basis columns, the combined
column count is the exact sum of the individual column counts, and the
combined prior vector is the exact concatenation of the individual prior
vectors in declaration order. -/
theorem stack_not_mergeable (outs : List SigOut)
    (hp : outs.Pairwise (fun a b => ¬ mergeable a b)) :
    combineBlocks outs = outs ∧
    combinedCols outs = (outs.map SigOut.cols).flatten ∧
    (combinedCols outs).length = (outs.map (fun s => s.cols.length)).sum ∧
    combinedPhi outs = (outs.map SigOut.phi).flatten := by
  have h := combineBlocks_pairwise outs hp
  refine ⟨h, ?_, ?_, ?_⟩
  · rw [combinedCols, h]
  · rw [combinedCols, h, List.length_flatten, List.map_map]
    rfl
  · rw [combinedPhi, h]

/-- Witness for C2 at a concrete input: an epoch-type signal and two Fourier
signals with different spans stack as three independent blocks, columns
summed and priors concatenated. -/
theorem stack_not_mergeable_witness :
    combineBlocks
        [⟨GenKind.ecorr, none, [true], [[1]], [5]⟩,
         ⟨GenKind.fourier, some 1, [true], [[2], [3]], [6, 7]⟩,
         ⟨GenKind.fourier, some 2, [true], [[4], [8]], [9, 11]⟩] =
      [⟨GenKind.ecorr, none, [true], [[1]], [5]⟩,
       ⟨GenKind.fourier, some 1, [true], [[2], [3]], [6, 7]⟩,
       ⟨GenKind.fourier, some 2, [true], [[4], [8]], [9, 11]⟩] ∧
    combinedCols
        [⟨GenKind.ecorr, none, [true], [[1]], [5]⟩,
         ⟨GenKind.fourier, some 1, [true], [[2], [3]], [6, 7]⟩,
         ⟨GenKind.fourier, some 2, [true], [[4], [8]], [9, 11]⟩] =
      [[1], [2], [3], [4], [8]] ∧
    combinedPhi
        [⟨GenKind.ecorr, none, [true], [[1]], [5]⟩,
         ⟨GenKind.fourier, some 1, [true], [[2], [3]], [6, 7]⟩,
         ⟨GenKind.fourier, some 2, [true], [[4], [8]], [9, 11]⟩] =
      [5, 6, 7, 9, 11] := by
  have h := stack_not_mergeable
    [⟨GenKind.ecorr, none, [true], [[1]], [5]⟩,
     ⟨GenKind.fourier, some 1, [true], [[2], [3]], [6, 7]⟩,
     ⟨GenKind.fourier, some 2, [true], [[4], [8]], [9, 11]⟩] (by decide)
  exact ⟨h.1, by decide, by decide⟩

/-- C4: for every collection of signals whose evaluated outputs are
well-formed over a TOA set of size N and every parameter mapping, the
combined basis has row count N and column count equal to the sum of the
merged blocks' column counts, the prior vector has exactly that length, and
the prior vector and basis columns are the blockwise concatenations of the
same block list, each block contributing one prior entry per column. -/
theorem combined_shape_invariants (sigs : List (Params → SigOut)) (prm : Params)
    (N : ℕ) (h : ∀ s ∈ sigs, WF N (s prm)) :
    (∀ c ∈ get_basis sigs prm, c.length = N) ∧
    (get_phi sigs prm).length = (get_basis sigs prm).length ∧
    (get_basis sigs prm).length =
      ((combineBlocks (sigs.map (fun s => s prm))).map
        (fun b => b.cols.length)).sum ∧
    get_basis sigs prm =
      ((combineBlocks (sigs.map (fun s => s prm))).map SigOut.cols).flatten ∧
    get_phi sigs prm =
      ((combineBlocks (sigs.map (fun s => s prm))).map SigOut.phi).flatten ∧
    ∀ b ∈ combineBlocks (sigs.map (fun s => s prm)),
      b.phi.length = b.cols.length := by
  have hwf : ∀ b ∈ combineBlocks (sigs.map (fun s => s prm)), WF N b := by
    refine wf_combineBlocks ?_
    intro s hs
    obtain ⟨x, hx, rfl⟩ := List.mem_map.mp hs
    exact h x hx
  refine ⟨?_, ?_, ?_, rfl, rfl, fun b hb => (hwf b hb).2⟩
  · intro c hc
    rw [get_basis, combinedCols] at hc
    obtain ⟨l, hl, hcl⟩ := List.mem_flatten.mp hc
    obtain ⟨b, hb, rfl⟩ := List.mem_map.mp hl
    exact (hwf b hb).1 c hcl
  · rw [get_phi, get_basis, combinedPhi, combinedCols, List.length_flatten,
      List.length_flatten, List.map_map, List.map_map]
    exact congrArg List.sum
      (List.map_congr_left (fun b hb => (hwf b hb).2))
  · rw [get_basis, combinedCols, List.length_flatten, List.map_map]
    rfl

/-- Witness for C4 at a concrete input: a one-signal collection over two
TOAs. -/
theorem combined_shape_invariants_witness :
    (∀ c ∈ get_basis [fun _ =>
        (⟨GenKind.ecorr, none, [true, true], [[1, 2]], [3]⟩ : SigOut)]
        (fun _ => 0), c.length = 2) ∧
    (get_phi [fun _ =>
        (⟨GenKind.ecorr, none, [true, true], [[1, 2]], [3]⟩ : SigOut)]
        (fun _ => 0)).length =
      (get_basis [fun _ =>
        (⟨GenKind.ecorr, none, [true, true], [[1, 2]], [3]⟩ : SigOut)]
        (fun _ => 0)).length := by
  have h := combined_shape_invariants
    [fun _ => (⟨GenKind.ecorr, none, [true, true], [[1, 2]], [3]⟩ : SigOut)]
    (fun _ => 0) 2 (by
      intro s hs
      rw [List.mem_singleton] at hs
      subst hs
      exact ⟨by decide, by decide⟩)
  exact ⟨h.1, h.2.1⟩

/-- C5: for every collection of signals and every parameter mapping, the
combined inverse prior vector is the exact elementwise reciprocal of the
combined prior vector, entry by entry. -/
theorem phiinv_elementwise_reciprocal (sigs : List (Params → SigOut))
    (prm : Params) :
    get_phiinv sigs prm = (get_phi sigs prm).map (fun x => 1 / x) := by
  rw [get_phiinv, get_phi, combinedPhiinv, combinedPhi, List.map_flatten,
    List.map_map]
  rfl

/-- C6: for a single unpartitioned quantization-epoch (ecorr) signal and
every parameter value, including negative values, the basis equals the
reference epoch-indicator matrix built from the TOA set, and the prior
vector is the constant 10^(2·param) replicated once per epoch (with the
base-10 exponential abstracted as pow10), the inverse prior being its
reciprocal. -/
theorem ecorr_signal_values (pow10 : ℚ → ℚ) (w : ℚ) (toas : List ℚ)
    (pname : String) (prm : Params) :
    get_basis [EcorrBasisModel pow10 w toas pname] prm =
      create_quantization_matrix w toas ∧
    get_phi [EcorrBasisModel pow10 w toas pname] prm =
      List.replicate (create_quantization_matrix w toas).length
        (pow10 (2 * prm pname)) ∧
    get_phiinv [EcorrBasisModel pow10 w toas pname] prm =
      List.replicate (create_quantization_matrix w toas).length
        (1 / pow10 (2 * prm pname)) := by
  refine ⟨?_, ?_, ?_⟩ <;>
    simp [get_basis, get_phi, get_phiinv, combinedCols, combinedPhi,
      combinedPhiinv, combineBlocks, insertSig, EcorrBasisModel,
      List.map_replicate]

/-- C7: for a single unpartitioned Fourier red-noise signal with M sinusoid
pairs over span T, the basis has 2·M columns of length N with the sine and
cosine columns at frequency (j+1)/T in consecutive positions 2j and 2j+1,
every prior entry is the spectral density at that column's frequency
multiplied by the fundamental frequency spacing 1/T, and the sine and cosine
columns at the same frequency receive the identical variance value. -/
theorem fourier_signal_values (sinA cosA : ℚ → ℚ) (psd : Params → ℚ → ℚ)
    (M : ℕ) (T : ℚ) (toas : List ℚ) (prm : Params) :
    (get_basis [FourierBasisGP sinA cosA psd M T toas] prm).length = 2 * M ∧
    (∀ c ∈ get_basis [FourierBasisGP sinA cosA psd M T toas] prm,
      c.length = toas.length) ∧
    (∀ j, j < M →
      (get_basis [FourierBasisGP sinA cosA psd M T toas] prm).getD (2 * j) [] =
        toas.map (fun t => sinA (((j : ℚ) + 1) / T * t)) ∧
      (get_basis [FourierBasisGP sinA cosA psd M T toas] prm).getD
          (2 * j + 1) [] =
        toas.map (fun t => cosA (((j : ℚ) + 1) / T * t)) ∧
      (fourierFreqs M T).getD (2 * j) 0 = ((j : ℚ) + 1) / T ∧
      (fourierFreqs M T).getD (2 * j + 1) 0 = ((j : ℚ) + 1) / T) ∧
    (∀ k, k < 2 * M →
      (get_phi [FourierBasisGP sinA cosA psd M T toas] prm).getD k 0 =
        psd prm ((fourierFreqs M T).getD k 0) * (1 / T)) ∧
    (∀ j, j < M →
      (get_phi [FourierBasisGP sinA cosA psd M T toas] prm).getD (2 * j) 0 =
        (get_phi [FourierBasisGP sinA cosA psd M T toas] prm).getD
          (2 * j + 1) 0) := by
  have hb : get_basis [FourierBasisGP sinA cosA psd M T toas] prm =
      createfourierdesignmatrix_red sinA cosA toas M T := by
    simp [get_basis, combinedCols, combineBlocks, insertSig, FourierBasisGP]
  have hp : get_phi [FourierBasisGP sinA cosA psd M T toas] prm =
      pairList (fun k => psd prm (((k : ℚ) + 1) / T) * (1 / T))
        (fun k => psd prm (((k : ℚ) + 1) / T) * (1 / T)) M := by
    simp only [get_phi, combinedPhi, combineBlocks, List.foldl, insertSig,
      FourierBasisGP, List.map_cons, List.map_nil, List.flatten_cons,
      List.flatten_nil, List.append_nil]
    rw [fourierFreqs, pairList_map]
  refine ⟨?_, ?_, ?_, ?_, ?_⟩
  · rw [hb, createfourierdesignmatrix_red, pairList_length]
  · intro c hc
    rw [hb, createfourierdesignmatrix_red] at hc
    obtain ⟨k, _, hck⟩ := mem_pairList hc
    rcases hck with rfl | rfl <;> exact List.length_map toas _
  · intro j hj
    rw [hb, createfourierdesignmatrix_red, fourierFreqs]
    exact ⟨pairList_getD_even _ _ M j [] hj, pairList_getD_odd _ _ M j [] hj,
      pairList_getD_even _ _ M j 0 hj, pairList_getD_odd _ _ M j 0 hj⟩
  · intro k hk
    rw [hp, fourierFreqs]
    have hj : k / 2 < M := by omega
    rcases Nat.even_or_odd k with ⟨j, hkj⟩ | ⟨j, hkj⟩
    · have hk2 : k = 2 * j := by omega
      subst hk2
      rw [pairList_getD_even _ _ M j 0 (by omega),
        pairList_getD_even _ _ M j (0 : ℚ) (by omega)]
    · have hk2 : k = 2 * j + 1 := by omega
      subst hk2
      rw [pairList_getD_odd _ _ M j 0 (by omega),
        pairList_getD_odd _ _ M j (0 : ℚ) (by omega)]
  · intro j hj
    rw [hp, pairList_getD_even _ _ M j 0 hj, pairList_getD_odd _ _ M j 0 hj]

/-- C8: for the timing-model signal, each basis column is the corresponding
column of the externally supplied design matrix divided by its Euclidean
norm over all rows (square root abstracted as sqrtA), the prior vector is
the very large constant variance 10^40 repeated identically in every column,
and the signal consumes no hyperparameters: its output is the same under
every parameter mapping. -/
theorem timing_model_values (sqrtA : ℚ → ℚ) (Mmat : List (List ℚ))
    (prm : Params) :
    get_basis [TimingModel sqrtA Mmat] prm = normalizeCols sqrtA Mmat ∧
    (∀ j, j < Mmat.length →
      (get_basis [TimingModel sqrtA Mmat] prm).getD j [] =
        (Mmat.getD j []).map
          (fun x => x / sqrtA (sumSq (Mmat.getD j [])))) ∧
    get_phi [TimingModel sqrtA Mmat] prm =
      List.replicate Mmat.length ((10 : ℚ) ^ (40 : ℕ)) ∧
    (∀ p q : Params, TimingModel sqrtA Mmat p = TimingModel sqrtA Mmat q) := by
  have hb : get_basis [TimingModel sqrtA Mmat] prm =
      normalizeCols sqrtA Mmat := by
    simp [get_basis, combinedCols, combineBlocks, insertSig, TimingModel]
  refine ⟨hb, ?_, ?_, fun p q => rfl⟩
  · intro j hj
    rw [hb, normalizeCols, List.getD_eq_getElem?_getD, List.getElem?_map,
      List.getElem?_eq_getElem hj]
    have hg : Mmat.getD j [] = Mmat[j] := by
      rw [List.getD_eq_getElem?_getD, List.getElem?_eq_getElem hj]
      rfl
    rw [hg]
    rfl
  · simp [get_phi, combinedPhi, combineBlocks, insertSig, TimingModel]

/-- C9: constructing a Fourier red-noise signal fails with a configuration
error exactly when the number of sinusoid pairs or the total time span is
non-positive, and succeeds at construction time (returning the signal, with
nothing deferred to query time) otherwise. -/
theorem fourier_construction_validation (sinA cosA : ℚ → ℚ)
    (psd : Params → ℚ → ℚ) (components : ℤ) (Tspan : ℚ) (toas : List ℚ) :
    ((∃ e, mkFourierBasisGP sinA cosA psd components Tspan toas =
        Except.error e) ↔ components ≤ 0 ∨ Tspan ≤ 0) ∧
    (0 < components → 0 < Tspan →
      mkFourierBasisGP sinA cosA psd components Tspan toas =
        Except.ok (FourierBasisGP sinA cosA psd components.toNat Tspan toas)) := by
  unfold mkFourierBasisGP
  split_ifs with h1 h2
  · refine ⟨⟨fun _ => Or.inl h1, fun _ => ⟨_, rfl⟩⟩, ?_⟩
    intro hc _
    exact absurd h1 (by omega)
  · refine ⟨⟨fun _ => Or.inr h2, fun _ => ⟨_, rfl⟩⟩, ?_⟩
    intro _ hT
    exact absurd h2 (not_le.mpr hT)
  · refine ⟨⟨?_, ?_⟩, fun _ _ => rfl⟩
    · rintro ⟨e, he⟩
      exact absurd he (by simp)
    · rintro (h | h)
      · exact absurd h h1
      · exact absurd h h2

theorem sum_map_constant {α : Type} (l : List α) (c : ℕ) :
    (l.map (fun _ => c)).sum = c * l.length := by
  induction l with
  | nil => simp
  | cons x xs ih => simp [ih, Nat.mul_succ]; ring

theorem fourierReplica_cols_length (sinA cosA : ℚ → ℚ)
    (psd : Params → ℚ → ℚ) (M : ℕ) (T : ℚ) (toas : List ℚ)
    (flags : List String) (v : String) (prm : Params) :
    ((fourierReplica sinA cosA psd M T toas flags v) prm).cols.length =
      2 * M := by
  rw [fourierReplica]
  simp only [List.length_map]
  rw [createfourierdesignmatrix_red, pairList_length]

/-- C3 (amended): for a Fourier signal bound to a by-flag Selection, the
replicas' boolean masks are pairwise disjoint and cover every TOA exactly
once, the replicas are ordered by the sorted distinct flag values, and the
sum of the replicas' column counts is 2·M times the number of distinct flag
values — which equals the column count of the signal evaluated on the full
unpartitioned TOA set exactly when a single distinct flag value is
present. -/
theorem selection_partition_properties (sinA cosA : ℚ → ℚ)
    (psd : Params → ℚ → ℚ) (M : ℕ) (T : ℚ) (toas : List ℚ)
    (flags : List String) (prm : Params) :
    List.Sorted flagLe (distinctFlags flags) ∧
    (distinctFlags flags).Pairwise (fun v w => ∀ i : ℕ,
      ¬((flagMask flags v).getD i false = true ∧
        (flagMask flags w).getD i false = true)) ∧
    (∀ i, i < flags.length →
      (distinctFlags flags).countP
        (fun v => (flagMask flags v).getD i false) = 1) ∧
    fourierReplicas sinA cosA psd M T toas flags =
      (distinctFlags flags).map
        (fourierReplica sinA cosA psd M T toas flags) ∧
    ((fourierReplicas sinA cosA psd M T toas flags).map
        (fun s => (s prm).cols.length)).sum =
      2 * M * (distinctFlags flags).length ∧
    ((distinctFlags flags).length = 1 →
      ((fourierReplicas sinA cosA psd M T toas flags).map
          (fun s => (s prm).cols.length)).sum =
        ((FourierBasisGP sinA cosA psd M T toas) prm).cols.length) := by
  have hsum : ((fourierReplicas sinA cosA psd M T toas flags).map
      (fun s => (s prm).cols.length)).sum =
      2 * M * (distinctFlags flags).length := by
    rw [fourierReplicas, List.map_map]
    have hc : ((fun s => (s prm).cols.length) ∘
        fourierReplica sinA cosA psd M T toas flags) =
        fun _ => 2 * M := by
      funext v
      exact fourierReplica_cols_length sinA cosA psd M T toas flags v prm
    rw [hc, sum_map_constant]
  refine ⟨distinctFlags_sorted flags, flagMask_disjoint flags,
    flagMask_cover flags, rfl, hsum, ?_⟩
  intro h1
  rw [hsum, h1]
  show 2 * M * 1 = (createfourierdesignmatrix_red sinA cosA toas M T).length
  rw [createfourierdesignmatrix_red, pairList_length]
  exact Nat.mul_one (2 * M)

/-- Counterexample for C3 as stated: a one-pair Fourier signal over two TOAs
carrying two distinct flag values has two replicas of two columns each, so
the replica column counts sum to 4 while the same signal on the full
unpartitioned TOA set has 2 columns. -/
theorem selection_partition_counterexample :
    ¬ (((fourierReplicas (fun x => x) (fun x => x) (fun _ f => f) 1 1 [0, 1]
          ["a", "b"]).map (fun s => (s (fun _ => 0)).cols.length)).sum =
        ((FourierBasisGP (fun x => x) (fun x => x) (fun _ f => f) 1 1 [0, 1])
          (fun _ => 0)).cols.length) := by
  decide

/-- C10: write_designmatrix and read_designmatrix raise a ValueError before
touching any HDF5 data whenever the attribute argument is not
"_designmatrix"; with attribute equal to "_designmatrix" no such error is
raised — the write succeeds and the read can only fail with a KeyError for a
missing dataset name. -/
theorem designmatrix_attribute_guard (h5file : H5File) (name : String)
    (thing : PsrThing) (attr : String) :
    (attr ≠ "_designmatrix" →
      write_designmatrix h5file name thing attr =
        Except.error
          ("Trying to write " ++ attr ++ " as if it were the design matrix") ∧
      read_designmatrix h5file name thing attr =
        Except.error
          ("Trying to write " ++ attr ++ " as if it were the design matrix")) ∧
    (attr = "_designmatrix" →
      (∃ f2, write_designmatrix h5file name thing attr = Except.ok f2) ∧
      ∀ e, read_designmatrix h5file name thing attr = Except.error e →
        e = "KeyError: " ++ name) := by
  constructor
  · intro h
    rw [write_designmatrix, if_pos h, read_designmatrix, if_pos h]
    exact ⟨rfl, rfl⟩
  · intro h
    subst h
    constructor
    · rw [write_designmatrix, if_neg (by simp)]
      exact ⟨_, rfl⟩
    · intro e he
      rw [read_designmatrix, if_neg (by simp)] at he
      cases hda : h5file.datasets.lookup name with
      | none =>
        rw [hda] at he
        simpa using he.symm
      | some ds =>
        rw [hda] at he
        exact absurd he (by simp)

end Enterprise
